import Mathlib

/-!
Verification of the benchmark-comparison engine `scripts/compare_benchmarks.py`.

Modelling conventions:
* Python floats are modelled as exact rationals (`ℚ`).  Every numeric value
  handled by the program originates from a decimal literal captured by a
  regular expression, so rational arithmetic coincides with the intended
  real-number semantics of the computations the claims are about.
* Python strings are modelled as `List Char`; a file's text is the list of
  its characters and `splitNl` models `str.split('\n')`.
* The regular expressions of the source are small and use disjoint
  character classes at every choice point, so each one is embedded as a
  deterministic scanning function; `searchPat` models `re.search` (first
  start position at which the whole pattern matches).
* `Dict[str, BenchmarkMetrics]` is modelled as an association list with
  insert-or-replace update (`insertM`) and lookup (`lookupM`); the program
  never iterates over the dictionary, so ordering is irrelevant.
-/

namespace CompareBenchmarks

/-! ## Character classes (ASCII, as used by the source's regexes) -/

/-- Python's `\d` (ASCII digits, the only ones the logs contain). -/
def isDigitC (c : Char) : Bool := '0' ≤ c && c ≤ '9'

/-- Python's `\s` (ASCII whitespace). -/
def isPySpaceB (c : Char) : Bool :=
  c == ' ' || c == '\t' || c == '\n' || c == '\r' || c == '\x0b' || c == '\x0c'

/-- The character class `[:\s]` used between a metric label and its value. -/
def isColonSpaceB (c : Char) : Bool := c == ':' || isPySpaceB c

/-- Python's `\w` (ASCII word characters). -/
def isWordB (c : Char) : Bool :=
  ('a' ≤ c && c ≤ 'z') || ('A' ≤ c && c ≤ 'Z') || isDigitC c || c == '_'

/-! ## List utilities -/

/-- `startsSeq p l` holds when `p` is a prefix of `l`. -/
def startsSeq : List Char → List Char → Bool
  | [], _ => true
  | _ :: _, [] => false
  | a :: as, b :: bs => if a = b then startsSeq as bs else false

/-- `containsSeq n h` holds when `n` occurs contiguously inside `h`
(Python's `n in h` for strings). -/
def containsSeq (n h : List Char) : Bool := h.tails.any fun t => startsSeq n t

/-- `str.split('\n')`: always returns at least one (possibly empty) piece. -/
def splitNl : List Char → List (List Char)
  | [] => [[]]
  | c :: t =>
    if c = '\n' then [] :: splitNl t
    else
      match splitNl t with
      | h :: r => (c :: h) :: r
      | [] => [[c]]

/-- `re.search`: try the pattern at each start position, leftmost match wins. -/
def searchPat {α : Type} (m : List Char → Option α) : List Char → Option α
  | [] => m []
  | c :: t =>
    match m (c :: t) with
    | some r => some r
    | none => searchPat m t

/-! ## Numbers -/

/-- Value of a list of decimal digit characters. -/
def natOfDigits (l : List Char) : ℕ :=
  l.foldl (fun a c => 10 * a + (c.toNat - 48)) 0

/-- Exact value of the decimal literal with integer digits `ds` and
fractional digits `ds2` (`float` on the captured group, modelled exactly). -/
def ratOfParts (ds ds2 : List Char) : ℚ :=
  (natOfDigits ds : ℚ) + (natOfDigits ds2 : ℚ) / (10 : ℚ) ^ ds2.length

/-- The capture group `(\d+\.?\d*)`: one or more digits, an optional dot,
then any further digits, greedily; returns the value and the rest of the
line after the capture. -/
def numCapAt (s : List Char) : Option (ℚ × List Char) :=
  let ds := s.takeWhile isDigitC
  if ds.isEmpty then none
  else
    match s.drop ds.length with
    | '.' :: r2 =>
      let ds2 := r2.takeWhile isDigitC
      some (ratOfParts ds ds2, r2.drop ds2.length)
    | r1 => some (ratOfParts ds [], r1)

/-! ## The metric patterns of `parse_log_file` -/

/-- Unit alternation such as `(?:ms|us|μs)`: some alternative starts here. -/
def unitsOk (units : List (List Char)) (s : List Char) : Bool :=
  units.any fun u => startsSeq u s

/-- One metric pattern anchored at the current position:
`[Cc]lit[:\s]+(\d+\.?\d*)\s*(?:units)` where the leading class admits
`c1` or `c2` (e.g. `[Pp]` followed by the literal `50`). -/
def metricAt (c1 c2 : Char) (lit : List Char) (units : List (List Char)) :
    List Char → Option ℚ
  | [] => none
  | c :: t =>
    if c = c1 ∨ c = c2 then
      if startsSeq lit t then
        let t1 := t.drop lit.length
        let sep := t1.takeWhile isColonSpaceB
        if sep.isEmpty then none
        else
          match numCapAt (t1.drop sep.length) with
          | some (v, r) => if unitsOk units (r.dropWhile isPySpaceB) then some v else none
          | none => none
      else none
    else none

def msUnits : List (List Char) := ["ms".data, "us".data, "μs".data]

def qpsUnits : List (List Char) := ["qps".data, "queries/sec".data, "samples/sec".data]

/-- `re.search` of `[Pp]50[:\s]+(\d+\.?\d*)\s*(?:ms|us|μs)`. -/
def p50Search (l : List Char) : Option ℚ := searchPat (metricAt 'P' 'p' "50".data msUnits) l

/-- `re.search` of `[Pp]90[:\s]+(\d+\.?\d*)\s*(?:ms|us|μs)`. -/
def p90Search (l : List Char) : Option ℚ := searchPat (metricAt 'P' 'p' "90".data msUnits) l

/-- `re.search` of `[Pp]99[:\s]+(\d+\.?\d*)\s*(?:ms|us|μs)`. -/
def p99Search (l : List Char) : Option ℚ := searchPat (metricAt 'P' 'p' "99".data msUnits) l

/-- `re.search` of `[Mm]ax[:\s]+(\d+\.?\d*)\s*(?:ms|us|μs)`. -/
def maxSearch (l : List Char) : Option ℚ := searchPat (metricAt 'M' 'm' "ax".data msUnits) l

/-- `re.search` of `[Tt]hroughput[:\s]+(\d+\.?\d*)\s*(?:qps|queries/sec|samples/sec)`. -/
def qpsSearch (l : List Char) : Option ℚ :=
  searchPat (metricAt 'T' 't' "hroughput".data qpsUnits) l

/-! ## The test-name pattern
`(?:TEST_F|BENCHMARK)\([^,]+,\s*(\w+)\)|(\w+):\s+Count:` -/

/-- First alternative: a structured test declaration; returns group 1. -/
def testAlt1 (s : List Char) : Option (List Char) :=
  let after :=
    if startsSeq "TEST_F".data s then some (s.drop 6)
    else if startsSeq "BENCHMARK".data s then some (s.drop 9)
    else none
  match after with
  | none => none
  | some t =>
    match t with
    | '(' :: t1 =>
      let arg := t1.takeWhile fun c => if c = ',' then false else true
      if arg.isEmpty then none
      else
        match t1.drop arg.length with
        | ',' :: t2 =>
          let t3 := t2.dropWhile isPySpaceB
          let w := t3.takeWhile isWordB
          if w.isEmpty then none
          else
            match t3.drop w.length with
            | ')' :: _ => some w
            | _ => none
        | _ => none
    | _ => none

/-- Second alternative: the `<name>: Count:` shape; returns group 2. -/
def testAlt2 (s : List Char) : Option (List Char) :=
  let w := s.takeWhile isWordB
  if w.isEmpty then none
  else
    match s.drop w.length with
    | ':' :: t1 =>
      let sp := t1.takeWhile isPySpaceB
      if sp.isEmpty then none
      else if startsSeq "Count:".data (t1.drop sp.length) then some w else none
    | _ => none

/-- `re.search` of the test-name pattern; the captured name is
`group(1) or group(2)` (both alternatives capture a nonempty word). -/
def testSearch (l : List Char) : Option (List Char) :=
  searchPat (fun s => (testAlt1 s).orElse fun _ => testAlt2 s) l

/-! ## The two summary-override patterns -/

/-- Shared tail `[:\s]+(\d+\.?\d*)\s*ms` of both summary patterns. -/
def sumTailAt (t1 : List Char) : Option ℚ :=
  let sep := t1.takeWhile isColonSpaceB
  if sep.isEmpty then none
  else
    match numCapAt (t1.drop sep.length) with
    | some (v, r) => if startsSeq "ms".data (r.dropWhile isPySpaceB) then some v else none
    | none => none

/-- `Latency p50[:\s]+(\d+\.?\d*)\s*ms` anchored at the current position. -/
def sumPat1At (s : List Char) : Option ℚ :=
  if startsSeq "Latency p50".data s then sumTailAt (s.drop 11) else none

/-- The part of the second summary pattern after `.*`:
`p99[:\s]+(\d+\.?\d*)\s*ms` anchored at the current position. -/
def p99TailAt (s : List Char) : Option ℚ :=
  if startsSeq "p99".data s then sumTailAt (s.drop 3) else none

/-- `Read.*p99[:\s]+(\d+\.?\d*)\s*ms` anchored at the current position; the
greedy `.*` makes the last matching `p99` position win. -/
def sumPat2At (s : List Char) : Option ℚ :=
  if startsSeq "Read".data s then ((s.drop 4).tails.filterMap p99TailAt).getLast? else none

def sumPat1Search (l : List Char) : Option ℚ := searchPat sumPat1At l

def sumPat2Search (l : List Char) : Option ℚ := searchPat sumPat2At l

/-! ## The data model -/

/-- `BenchmarkMetrics`: parsed benchmark metrics of one test case. -/
structure BenchmarkMetrics where
  name : List Char
  p50_ms : Option ℚ := none
  p90_ms : Option ℚ := none
  p99_ms : Option ℚ := none
  max_ms : Option ℚ := none
  throughput_qps : Option ℚ := none
  count : Option ℤ := none
deriving DecidableEq, Repr

/-- A fresh record, `BenchmarkMetrics(name=n)`. -/
def initMetrics (n : List Char) : BenchmarkMetrics := { name := n }

/-- The parse result: a mapping from test name to record. -/
abbrev MMap := List (List Char × BenchmarkMetrics)

/-- Dictionary lookup, `metrics.get(k)`. -/
def lookupM (m : MMap) (k : List Char) : Option BenchmarkMetrics :=
  match m with
  | [] => none
  | (k', v) :: r => if k = k' then some v else lookupM r k

/-- Dictionary update, `metrics[k] = v` (replace or append). -/
def insertM (m : MMap) (k : List Char) (v : BenchmarkMetrics) : MMap :=
  match m with
  | [] => [(k, v)]
  | (k', v') :: r => if k = k' then (k, v) :: r else (k', v') :: insertM r k v

/-! ## `parse_log_file` -/

/-- The per-line pass of `parse_log_file`: switch the current-test context
on a test-name match (creating the record if new), then apply the five
metric patterns to the record of the current context and write it back. -/
def scanLine (st : List Char × MMap) (line : List Char) : List Char × MMap :=
  let res :=
    match testSearch line with
    | some name =>
      (name, if (lookupM st.2 name).isSome then st.2 else insertM st.2 name (initMetrics name))
    | none => (st.1, st.2)
  let cur := res.1
  let m1 := res.2
  let rec0 := (lookupM m1 cur).getD (initMetrics cur)
  let rec1 := match p50Search line with
    | some v => { rec0 with p50_ms := some v } | none => rec0
  let rec2 := match p90Search line with
    | some v => { rec1 with p90_ms := some v } | none => rec1
  let rec3 := match p99Search line with
    | some v => { rec2 with p99_ms := some v } | none => rec2
  let rec4 := match maxSearch line with
    | some v => { rec3 with max_ms := some v } | none => rec3
  let rec5 := match qpsSearch line with
    | some v => { rec4 with throughput_qps := some v } | none => rec4
  (cur, insertM m1 cur rec5)

/-- First pass over all lines, starting from context `"overall"` and an
empty mapping. -/
def parseLines (lines : List (List Char)) : MMap :=
  (lines.foldl scanLine ("overall".data, [])).2

/-- One summary pattern applied to one line: if it matched and `"overall"`
is present, overwrite `p50_ms` when the lowered line contains `p50`, else
`p99_ms` when it contains `p99`. -/
def applyOverride (m : MMap) (res : Option ℚ) (line : List Char) : MMap :=
  match res with
  | none => m
  | some v =>
    match lookupM m "overall".data with
    | none => m
    | some rec0 =>
      let low := line.map Char.toLower
      if containsSeq "p50".data low then insertM m "overall".data { rec0 with p50_ms := some v }
      else if containsSeq "p99".data low then
        insertM m "overall".data { rec0 with p99_ms := some v }
      else m

/-- The second pass' treatment of one line: both summary patterns in order. -/
def overrideLine (m : MMap) (line : List Char) : MMap :=
  applyOverride (applyOverride m (sumPat1Search line) line) (sumPat2Search line) line

/-- The summary-override second pass of `parse_log_file`. -/
def summaryPass (m : MMap) (lines : List (List Char)) : MMap :=
  lines.foldl overrideLine m

/-- `parse_log_file`, applied to the text of the file. -/
def parseLogFile (content : List Char) : MMap :=
  let lines := splitNl content
  summaryPass (parseLines lines) lines

/-! ## Decimal formatting

`f"{x:.1f}"` formats the value rounded to one decimal place (ties to even);
the default `str` of a float prints its shortest decimal form.  The values
the program formats are exact decimals, where both operations are the exact
decimal renderings implemented here. -/

/-- A decimal digit character. -/
def digChar : ℕ → Char
  | 0 => '0' | 1 => '1' | 2 => '2' | 3 => '3' | 4 => '4'
  | 5 => '5' | 6 => '6' | 7 => '7' | 8 => '8' | _ => '9'

def natCharsGo : ℕ → ℕ → List Char
  | 0, _ => []
  | fuel + 1, m => if m < 10 then [digChar m] else natCharsGo fuel (m / 10) ++ [digChar (m % 10)]

/-- Decimal digits of a natural number. -/
def natChars (n : ℕ) : List Char := natCharsGo (n + 1) n

/-- Round to the nearest integer, ties to even. -/
def roundHalfEven (q : ℚ) : ℤ :=
  let f := ⌊q⌋
  let r := q - f
  if r < 1 / 2 then f else if 1 / 2 < r then f + 1 else if f % 2 = 0 then f else f + 1

/-- `f"{q:.1f}"` for a nonnegative value. -/
def fmtF1nn (q : ℚ) : List Char :=
  let n := (roundHalfEven (q * 10)).toNat
  natChars (n / 10) ++ '.' :: natChars (n % 10)

/-- `f"{q:.1f}"`. -/
def fmtF1 (q : ℚ) : List Char := if q < 0 then '-' :: fmtF1nn (-q) else fmtF1nn q

/-- Fractional decimal digits of `q ∈ [0,1)`, minimal (no trailing zeros);
the fuel bounds the expansion, ample for every value the program prints. -/
def fracChars : ℕ → ℚ → List Char
  | 0, _ => []
  | fuel + 1, q =>
    if q = 0 then []
    else
      let q10 := q * 10
      digChar ⌊q10⌋.toNat :: fracChars fuel (q10 - ⌊q10⌋)

/-- `str` of a nonnegative float with finite decimal expansion: integer
part, a dot, and the fractional digits (at least one, as Python prints
`200.0`). -/
def floatReprNn (q : ℚ) : List Char :=
  let ip := ⌊q⌋.toNat
  let frac := fracChars 30 (q - ⌊q⌋)
  natChars ip ++ '.' :: (if frac.isEmpty then ['0'] else frac)

/-- `str` of a float with finite decimal expansion. -/
def floatRepr (q : ℚ) : List Char := if q < 0 then '-' :: floatReprNn (-q) else floatReprNn q

/-! ## `calculate_improvement` -/

/-- A Python float that may be infinite (the computed speedup). -/
inductive PyVal where
  | fin (q : ℚ)
  | inf
deriving DecidableEq, Repr

/-- `abs(speedup) > 1.1` (`abs(inf)` is infinite, hence greater). -/
def absGt (v : PyVal) (t : ℚ) : Bool :=
  match v with
  | .fin q => t < |q|
  | .inf => true

/-- `f"{speedup:.1f}"` (`float('inf')` formats as `inf`). -/
def fmtPy (v : PyVal) : List Char :=
  match v with
  | .fin q => fmtF1 q
  | .inf => "inf".data

/-- The improvement percentage computed for present inputs with a nonzero
baseline. -/
def improvementOf (b o : ℚ) (lower : Bool) : ℚ :=
  if lower then (b - o) / b * 100 else (o - b) / b * 100

/-- The companion speedup: `baseline / optimized if optimized > 0 else
float('inf')` when lower is better, `optimized / baseline if baseline > 0
else float('inf')` otherwise. -/
def speedupOf (b o : ℚ) (lower : Bool) : PyVal :=
  if lower then (if 0 < o then .fin (b / o) else .inf)
  else (if 0 < b then .fin (o / b) else .inf)

def greenEsc : List Char := "\x1b[92m".data

def redEsc : List Char := "\x1b[91m".data

def resetEsc : List Char := "\x1b[0m".data

/-- `calculate_improvement`: improvement percentage (or `None`) and the
formatted display string. -/
def calcImprovement (baseline optimized : Option ℚ) (lower : Bool) :
    Option ℚ × List Char :=
  match baseline, optimized with
  | none, _ => (none, "N/A".data)
  | _, none => (none, "N/A".data)
  | some b, some o =>
    if b = 0 then (none, "N/A (baseline=0)".data)
    else
      let improvement := improvementOf b o lower
      let speedup := speedupOf b o lower
      let color := if 0 < improvement then greenEsc else redEsc
      let sign := if 0 < improvement then "+".data else []
      if absGt speedup (11 / 10) then
        (some improvement,
          color ++ sign ++ fmtF1 improvement ++ "% (".data ++ fmtPy speedup ++ "x)".data ++ resetEsc)
      else (some improvement, sign ++ fmtF1 improvement ++ "%".data)

/-! ## `compare_metrics` -/

/-- `f"{s:>w}"`: right-justify by padding with spaces (no truncation). -/
def padL (w : ℕ) (s : List Char) : List Char := List.replicate (w - s.length) ' ' ++ s

/-- `f"{s:<w}"`: left-justify by padding with spaces (no truncation). -/
def padR (w : ℕ) (s : List Char) : List Char := s ++ List.replicate (w - s.length) ' '

/-- `value or 'N/A'`: a missing value and the falsy value `0.0` both render
as the literal `N/A`; any other float renders with `str`. -/
def orNA (v : Option ℚ) : List Char :=
  match v with
  | none => "N/A".data
  | some q => if q = 0 then "N/A".data else floatRepr q

/-- `test_name in baseline` (dictionary membership). -/
def memB (m : MMap) (k : List Char) : Bool := (lookupM m k).isSome

/-- `baseline.get(test_name, BenchmarkMetrics(name=test_name))`. -/
def getOr (m : MMap) (k : List Char) : BenchmarkMetrics := (lookupM m k).getD (initMetrics k)

/-- The fixed key-test list of the renderer. -/
def keyMetrics : List (List Char) :=
  ["overall".data, "SLA_Compliance".data, "RangeQuery_1Hour_1MinStep".data,
   "InstantQuery_SimpleSelector".data, "InstantQuery_RateFunction".data]

/-- The latency section's two lines for one key test. -/
def latencyRows (baseline optimized : MMap) (t : List Char) : List (List Char) :=
  if memB baseline t || memB optimized t then
    let b := getOr baseline t
    let o := getOr optimized t
    let p50imp := (calcImprovement b.p50_ms o.p50_ms true).2
    let p99imp := (calcImprovement b.p99_ms o.p99_ms true).2
    ["  ".data ++ padR 23 (t.take 23) ++ " P50: ".data ++ padL 8 (orNA b.p50_ms) ++
       " → ".data ++ padL 8 (orNA o.p50_ms) ++ " ms  ".data ++ p50imp,
     "  ".data ++ padR 23 ([] : List Char) ++ " P99: ".data ++ padL 8 (orNA b.p99_ms) ++
       " → ".data ++ padL 8 (orNA o.p99_ms) ++ " ms  ".data ++ p99imp]
  else []

/-- The throughput section's line for one key test (only when either side
has a throughput value). -/
def throughputRows (baseline optimized : MMap) (t : List Char) : List (List Char) :=
  if memB baseline t || memB optimized t then
    let b := getOr baseline t
    let o := getOr optimized t
    if b.throughput_qps.isSome || o.throughput_qps.isSome then
      let qpsimp := (calcImprovement b.throughput_qps o.throughput_qps false).2
      ["  ".data ++ padR 23 (t.take 23) ++ " ".data ++ padL 8 (orNA b.throughput_qps) ++
         " → ".data ++ padL 8 (orNA o.throughput_qps) ++ " qps  ".data ++ qpsimp]
    else []
  else []

/-- The colorized `PASS` verdict. -/
def passStr : List Char := greenEsc ++ "PASS".data ++ resetEsc

/-- The colorized `FAIL` verdict. -/
def failStr : List Char := redEsc ++ "FAIL".data ++ resetEsc

/-- The verdict of one SLA target: `N/A` for an absent value, otherwise
`PASS`/`FAIL` by comparison against the target in the given direction. -/
def slaStatus (value : Option ℚ) (target : ℚ) (lower : Bool) : List Char :=
  match value with
  | none => "N/A".data
  | some v =>
    if lower then (if v ≤ target then passStr else failStr)
    else (if target ≤ v then passStr else failStr)

/-- The three fixed SLA targets evaluated against the reference record:
name, observed value, threshold, direction. -/
def slaTargets (m : BenchmarkMetrics) : List (List Char × Option ℚ × ℚ × Bool) :=
  [("p50 ≤ 50ms".data, m.p50_ms, 50, true),
   ("p99 ≤ 500ms".data, m.p99_ms, 500, true),
   ("Throughput ≥ 100 qps".data, m.throughput_qps, 100, false)]

/-- One rendered SLA line. -/
def slaLine (name : List Char) (value : Option ℚ) (target : ℚ) (lower : Bool) : List Char :=
  "  ".data ++ padR 30 name ++ ": ".data ++ padL 10 (orNA value) ++ " [".data ++
    slaStatus value target lower ++ "]".data

/-- The reference record of the SLA section:
`optimized.get('SLA_Compliance') or optimized.get('overall')`. -/
def slaRef (optimized : MMap) : Option BenchmarkMetrics :=
  (lookupM optimized "SLA_Compliance".data).orElse fun _ => lookupM optimized "overall".data

/-- The rendered SLA section body (empty when no reference record exists). -/
def slaSection (optimized : MMap) : List (List Char) :=
  match slaRef optimized with
  | none => []
  | some m => (slaTargets m).map fun t => slaLine t.1 t.2.1 t.2.2.1 t.2.2.2

/-- `'\n'.join(lines)`. -/
def joinNl : List (List Char) → List Char
  | [] => []
  | [l] => l
  | l :: r => l ++ '\n' :: joinNl r

/-- `compare_metrics`: the full comparison report. -/
def compareMetrics (baseline optimized : MMap) : List Char :=
  let eq80 := List.replicate 80 '='
  let dash80 := List.replicate 80 '-'
  joinNl
    ([eq80, "BENCHMARK COMPARISON REPORT".data, eq80, [],
      "LATENCY COMPARISON (lower is better)".data, dash80,
      padR 25 "Metric".data ++ ' ' :: padR 15 "Baseline".data ++ ' ' :: padR 15 "Optimized".data ++
        ' ' :: padR 25 "Improvement".data,
      dash80] ++
     keyMetrics.flatMap (latencyRows baseline optimized) ++
     [[], "THROUGHPUT COMPARISON (higher is better)".data, dash80] ++
     keyMetrics.flatMap (throughputRows baseline optimized) ++
     [[], eq80, "SLA TARGET STATUS".data, eq80] ++
     slaSection optimized ++
     [[], eq80])

/-! ## The run selector of `main` (directory mode) -/

/-- The glob `*mid*.log`: names ending in `.log` with `mid` occurring in
front of the suffix (none of the globs used can overlap the suffix). -/
def globMidLog (mid : List Char) (name : List Char) : Bool :=
  startsSeq ".log".data (name.drop (name.length - 4)) &&
    containsSeq mid (name.take (name.length - 4))

/-- Lexicographic order on names, as Python `sorted` uses on strings. -/
def lexLe : List Char → List Char → Bool
  | [], _ => true
  | _ :: _, [] => false
  | a :: as, b :: bs => if a < b then true else if b < a then false else lexLe as bs

def insertLex (x : List Char) : List (List Char) → List (List Char)
  | [] => [x]
  | y :: r => if lexLe x y then x :: y :: r else y :: insertLex x r

/-- `sorted` (stable insertion sort under `lexLe`). -/
def sortLex : List (List Char) → List (List Char)
  | [] => []
  | x :: r => insertLex x (sortLex r)

/-- Directory-mode run selection from the directory's file names.
`none` models the `sys.exit(1)` on a missing baseline.

The source computes
`sorted(results_dir.glob('*after*.log') or results_dir.glob('*optimized*.log'))`;
`Path.glob` returns a generator object, which is truthy even when it yields
nothing, so the `or` always evaluates to the first generator and the
`*optimized*.log` alternative is never consulted.  The embedding reproduces
that executed behavior. -/
def selectRuns (files : List (List Char)) : Option (List Char × List Char) :=
  let baselineFiles := sortLex (files.filter (globMidLog "baseline".data))
  let optimizedFiles := sortLex (files.filter (globMidLog "after".data))
  match baselineFiles.getLast? with
  | none => none
  | some b => some (b, (optimizedFiles.getLast?).getD b)

/-- Modelled from the spec: the Run Selector rule as specified — list the
`*after*.log` matches and fall back to the `*optimized*.log` matches only
when the former are empty, taking the lexically-last match, and reuse the
baseline only when both globs are empty.  (Stated for comparison with the
executed `selectRuns`.) -/
def selectRunsSpec (files : List (List Char)) : Option (List Char × List Char) :=
  let baselineFiles := sortLex (files.filter (globMidLog "baseline".data))
  let afterFiles := sortLex (files.filter (globMidLog "after".data))
  let optimizedFiles :=
    if afterFiles.isEmpty then sortLex (files.filter (globMidLog "optimized".data))
    else afterFiles
  match baselineFiles.getLast? with
  | none => none
  | some b => some (b, (optimizedFiles.getLast?).getD b)

/-! ## General lemmas about the embedding's building blocks -/

theorem startsSeq_self_append (l r : List Char) : startsSeq l (l ++ r) = true := by
  induction l with
  | nil => rfl
  | cons a as ih => simp [startsSeq, ih]

theorem startsSeq_head_ne {a b : Char} {as bs : List Char} (h : a ≠ b) :
    startsSeq (a :: as) (b :: bs) = false := by
  simp [startsSeq, h]

theorem startsSeq_head_mem {c : Char} {cs l : List Char}
    (h : startsSeq (c :: cs) l = true) : c ∈ l := by
  cases l with
  | nil => exact absurd h (by simp [startsSeq])
  | cons b bs =>
    by_cases hcb : c = b
    · exact hcb ▸ List.mem_cons_self b bs
    · rw [startsSeq_head_ne hcb] at h
      exact absurd h (by simp)

theorem startsSeq_eq_false_of_not_mem {c : Char} {cs l : List Char} (h : c ∉ l) :
    startsSeq (c :: cs) l = false := by
  cases hs : startsSeq (c :: cs) l with
  | false => rfl
  | true => exact absurd (startsSeq_head_mem hs) h

theorem digChar_isDigit : ∀ m : ℕ, isDigitC (digChar m) = true := by
  intro m
  rcases m with _ | _ | _ | _ | _ | _ | _ | _ | _ | m <;> rfl

theorem mem_natCharsGo {c : Char} :
    ∀ fuel m : ℕ, c ∈ natCharsGo fuel m → isDigitC c = true := by
  intro fuel
  induction fuel with
  | zero => intro m h; simp [natCharsGo] at h
  | succ fuel ih =>
    intro m h
    rw [natCharsGo] at h
    split at h
    · rw [List.mem_singleton] at h
      exact h ▸ digChar_isDigit m
    · rcases List.mem_append.mp h with h | h
      · exact ih _ h
      · rw [List.mem_singleton] at h
        exact h ▸ digChar_isDigit (m % 10)

theorem mem_natChars {c : Char} {n : ℕ} (h : c ∈ natChars n) : isDigitC c = true :=
  mem_natCharsGo _ _ h

theorem mem_fmtF1 {c : Char} {q : ℚ} (h : c ∈ fmtF1 q) :
    isDigitC c = true ∨ c = '-' ∨ c = '.' := by
  rw [fmtF1] at h
  have core : ∀ p : ℚ, c ∈ fmtF1nn p → isDigitC c = true ∨ c = '-' ∨ c = '.' := by
    intro p hp
    rw [fmtF1nn] at hp
    rcases List.mem_append.mp hp with hp | hp
    · exact Or.inl (mem_natChars hp)
    · rcases List.mem_cons.mp hp with hp | hp
      · exact Or.inr (Or.inr hp)
      · exact Or.inl (mem_natChars hp)
  split at h
  · rcases List.mem_cons.mp h with h | h
    · exact Or.inr (Or.inl h)
    · exact core _ h
  · exact core _ h

theorem mem_fmtPy {c : Char} {v : PyVal} (h : c ∈ fmtPy v) :
    isDigitC c = true ∨ c = '-' ∨ c = '.' ∨ c = 'i' ∨ c = 'n' ∨ c = 'f' := by
  cases v with
  | fin q =>
    rcases mem_fmtF1 h with h | h | h
    · exact Or.inl h
    · exact Or.inr (Or.inl h)
    · exact Or.inr (Or.inr (Or.inl h))
  | inf =>
    rw [show fmtPy PyVal.inf = ['i', 'n', 'f'] from rfl] at h
    rcases List.mem_cons.mp h with h | h
    · exact Or.inr (Or.inr (Or.inr (Or.inl h)))
    rcases List.mem_cons.mp h with h | h
    · exact Or.inr (Or.inr (Or.inr (Or.inr (Or.inl h))))
    rw [List.mem_singleton] at h
    exact Or.inr (Or.inr (Or.inr (Or.inr (Or.inr h))))

theorem digit_ne {c x : Char} (h : isDigitC c = true) (hx : isDigitC x = false) : c ≠ x := by
  rintro rfl
  rw [h] at hx
  exact absurd hx (by simp)

theorem plus_not_mem_fmtF1 {q : ℚ} : '+' ∉ fmtF1 q := by
  intro h
  rcases mem_fmtF1 h with h | h | h
  · exact absurd h (by decide)
  · exact absurd h (by decide)
  · exact absurd h (by decide)

theorem plus_not_mem_fmtPy {v : PyVal} : '+' ∉ fmtPy v := by
  intro h
  rcases mem_fmtPy h with h | h | h | h | h | h <;> exact absurd h (by decide)

theorem paren_not_mem_fmtF1 {q : ℚ} : '(' ∉ fmtF1 q := by
  intro h
  rcases mem_fmtF1 h with h | h | h <;> exact absurd h (by decide)

theorem paren_not_mem_fmtPy {v : PyVal} : '(' ∉ fmtPy v := by
  intro h
  rcases mem_fmtPy h with h | h | h | h | h | h <;> exact absurd h (by decide)

theorem esc_not_mem_fmtF1 {q : ℚ} : '\x1b' ∉ fmtF1 q := by
  intro h
  rcases mem_fmtF1 h with h | h | h <;> exact absurd h (by decide)

/-- Shape of `calculate_improvement` on present inputs with a nonzero
baseline. -/
theorem calcImprovement_present (b o : ℚ) (lower : Bool) (hb : ¬b = 0) :
    calcImprovement (some b) (some o) lower =
      (some (improvementOf b o lower),
        if absGt (speedupOf b o lower) (11 / 10) then
          (if 0 < improvementOf b o lower then greenEsc else redEsc) ++
            (if 0 < improvementOf b o lower then "+".data else []) ++
            fmtF1 (improvementOf b o lower) ++ "% (".data ++
            fmtPy (speedupOf b o lower) ++ "x)".data ++ resetEsc
        else
          (if 0 < improvementOf b o lower then "+".data else []) ++
            fmtF1 (improvementOf b o lower) ++ "%".data) := by
  show (if b = 0 then _ else _) = _
  rw [if_neg hb]
  split <;> rfl

/-! ## Claim C1 — directory-mode run selection -/

/-- C1: the claim states that with no `*after*.log` file present the
selector falls back to the `*optimized*.log` glob and picks its
lexically-last match.  The code as executed never consults the fallback
glob (`glob(...) or glob(...)` on always-truthy generators), so for a
directory holding `run_baseline_x.log` and `run_optimized_y.log` it reuses
the baseline file as the optimized side, while the specified rule
(`selectRunsSpec`) picks `run_optimized_y.log`. -/
theorem C1_code_bug :
    selectRuns ["run_baseline_x.log".data, "run_optimized_y.log".data] =
      some ("run_baseline_x.log".data, "run_baseline_x.log".data) ∧
    selectRunsSpec ["run_baseline_x.log".data, "run_optimized_y.log".data] =
      some ("run_baseline_x.log".data, "run_optimized_y.log".data) ∧
    globMidLog "optimized".data "run_optimized_y.log".data = true ∧
    globMidLog "after".data "run_baseline_x.log".data = false ∧
    globMidLog "after".data "run_optimized_y.log".data = false := by
  refine ⟨?_, ?_, by decide, by decide, by decide⟩ <;> decide

/-! ## Claim C5 — the two distinguishable N/A cases -/

/-- C5: `calculate_improvement` returns `N/A` whenever either input is
absent, returns the distinct `N/A (baseline=0)` whenever both inputs are
present with a zero baseline, and both cases are total (no exception). -/
theorem C5_na_cases :
    (∀ (o : Option ℚ) (lower : Bool), calcImprovement none o lower = (none, "N/A".data)) ∧
    (∀ (b : Option ℚ) (lower : Bool), calcImprovement b none lower = (none, "N/A".data)) ∧
    (∀ (q : ℚ) (lower : Bool),
      calcImprovement (some 0) (some q) lower = (none, "N/A (baseline=0)".data)) ∧
    "N/A".data ≠ "N/A (baseline=0)".data := by
  refine ⟨fun o lower => ?_, fun b lower => ?_, fun q lower => ?_, by decide⟩
  · cases o <;> rfl
  · cases b <;> rfl
  · simp [calcImprovement]

/-! ## Claim C6 — the SLA section's three fixed targets -/

/-- C6: the SLA section evaluates exactly the three fixed targets
p50 ≤ 50 ms, p99 ≤ 500 ms, throughput ≥ 100 qps against the reference
record, rendering PASS when the comparison holds and FAIL when it does
not; an absent field renders N/A, which is distinct from FAIL. -/
theorem C6_sla_targets :
    (∀ m : BenchmarkMetrics,
      slaTargets m = [("p50 ≤ 50ms".data, m.p50_ms, (50 : ℚ), true),
        ("p99 ≤ 500ms".data, m.p99_ms, (500 : ℚ), true),
        ("Throughput ≥ 100 qps".data, m.throughput_qps, (100 : ℚ), false)]) ∧
    (∀ (t : ℚ) (lower : Bool), slaStatus none t lower = "N/A".data) ∧
    (∀ q t : ℚ, slaStatus (some q) t true = if q ≤ t then passStr else failStr) ∧
    (∀ q t : ℚ, slaStatus (some q) t false = if t ≤ q then passStr else failStr) ∧
    containsSeq "PASS".data passStr = true ∧
    containsSeq "FAIL".data failStr = true ∧
    "N/A".data ≠ failStr ∧ "N/A".data ≠ passStr := by
  exact ⟨fun m => rfl, fun t lower => rfl, fun q t => rfl, fun q t => rfl,
    by decide, by decide, by decide, by decide⟩

/-! ## Claim C10 — falsy 0.0 renders as N/A while SLA verdicts still use it -/

/-- C10: a parsed value of exactly 0.0 renders as the literal `N/A` in the
numeric value slots (which are produced by `orNA`, the embedding of
`value or 'N/A'`, used by the latency, throughput and SLA lines), exactly
like a missing value; yet the SLA verdict for a 0.0 value is still the
computed PASS/FAIL, not N/A. -/
theorem C10_zero_renders_na :
    orNA (some 0) = "N/A".data ∧
    orNA none = "N/A".data ∧
    (∀ q : ℚ, q ≠ 0 → orNA (some q) = floatRepr q) ∧
    slaStatus (some 0) 50 true = passStr ∧
    slaStatus (some 0) 100 false = failStr ∧
    passStr ≠ "N/A".data ∧ failStr ≠ "N/A".data ∧
    containsSeq "N/A".data (slaLine "p50 ≤ 50ms".data (some 0) 50 true) = true ∧
    containsSeq "PASS".data (slaLine "p50 ≤ 50ms".data (some 0) 50 true) = true ∧
    containsSeq "N/A".data (slaLine "Throughput ≥ 100 qps".data (some 0) 100 false) = true ∧
    containsSeq "FAIL".data (slaLine "Throughput ≥ 100 qps".data (some 0) 100 false) = true := by
  refine ⟨by decide, rfl, fun q hq => by simp [orNA, hq], by decide, by decide,
    by decide, by decide, by decide, by decide, by decide, by decide⟩

/-- C10 witness: the one hypothesis-bearing conjunct applied at `q = 1`. -/
theorem C10_witness : orNA (some 1) = floatRepr 1 :=
  C10_zero_renders_na.2.2.1 1 (by norm_num)

/-! ## Claim C4 — improvement formula and speedup -/

/-- C4 counterexample: the claim defines the speedup as infinite exactly
when the divisor is zero; the code yields infinity for every non-positive
divisor, so at baseline 1, optimized −1 (divisor −1 ≠ 0) the code's
speedup is infinite rather than the claimed 1/(−1). -/
theorem C4_counterexample :
    speedupOf 1 (-1) true = PyVal.inf ∧
    PyVal.inf ≠ PyVal.fin ((1 : ℚ) / (-1)) ∧
    ((-1 : ℚ) ≠ 0) := by
  refine ⟨by decide, by decide, by norm_num⟩

/-- C4 amended: for present inputs with nonzero baseline the improvement
is `(b−o)/b×100` (lower-is-better) or `(o−b)/b×100` (higher-is-better),
and the speedup is `b/o` resp. `o/b` when the divisor is strictly
positive, infinite otherwise (in particular when the divisor is zero). -/
theorem C4_amended (b o : ℚ) (lower : Bool) (hb : b ≠ 0) :
    (calcImprovement (some b) (some o) lower).1 =
      some (if lower then (b - o) / b * 100 else (o - b) / b * 100) ∧
    (lower = true → (0 < o → speedupOf b o lower = PyVal.fin (b / o)) ∧
      (¬0 < o → speedupOf b o lower = PyVal.inf)) ∧
    (lower = false → (0 < b → speedupOf b o lower = PyVal.fin (o / b)) ∧
      (¬0 < b → speedupOf b o lower = PyVal.inf)) := by
  refine ⟨?_, ?_, ?_⟩
  · rw [calcImprovement]
    simp only [hb, if_false]
    split <;> simp [improvementOf]
  · rintro rfl
    constructor <;> intro ho <;> simp [speedupOf, ho]
  · rintro rfl
    constructor <;> intro hbp <;> simp [speedupOf, hbp]

/-- C4 witness: the amended statement applied at baseline 2, optimized 1,
lower-is-better. -/
theorem C4_witness :
    (calcImprovement (some (2 : ℚ)) (some 1) true).1 =
      some (if true then ((2 : ℚ) - 1) / 2 * 100 else ((1 : ℚ) - 2) / 2 * 100) ∧
    speedupOf 2 1 true = PyVal.fin (2 / 1) := by
  have h := C4_amended 2 1 true (by norm_num)
  exact ⟨h.1, (h.2.1 rfl).1 (by norm_num)⟩

/-! ## Claim C2 — display formatting of the improvement -/

/-- C2 counterexample: the claim says a non-positive improvement carries a
"bad" (red) visual indicator; at baseline 1, optimized 1 the improvement
is 0 (non-positive) but the display is the plain `0.0%` containing no
escape character at all, hence no red indicator. -/
theorem C2_counterexample :
    calcImprovement (some 1) (some 1) true = (some 0, "0.0%".data) ∧
    improvementOf 1 1 true ≤ 0 ∧
    '\x1b' ∉ "0.0%".data := by
  refine ⟨by with_unfolding_all rfl, by norm_num [improvementOf], by decide⟩

theorem startsSeq_red_green (r : List Char) : startsSeq redEsc (greenEsc ++ r) = false := rfl

theorem startsSeq_green_red (r : List Char) : startsSeq greenEsc (redEsc ++ r) = false := rfl

/-- C2 amended: for present inputs with positive baseline, a positive
improvement carries the explicit `+` sign and a non-positive one carries
no sign, but the good/bad (green/red) visual indicator — like the
parenthesised speedup multiplier — is present exactly when the absolute
speedup strictly exceeds 1.1; below that threshold only the signed
percentage is shown, with no color indicator. -/
theorem C2_amended (b o : ℚ) (lower : Bool) (hb : 0 < b)
    (d : List Char) (hd : d = (calcImprovement (some b) (some o) lower).2) :
    (calcImprovement (some b) (some o) lower).1 = some (improvementOf b o lower) ∧
    (('+' ∈ d) ↔ 0 < improvementOf b o lower) ∧
    (('(' ∈ d) ↔ absGt (speedupOf b o lower) (11 / 10) = true) ∧
    (startsSeq greenEsc d = true ↔
      (0 < improvementOf b o lower ∧ absGt (speedupOf b o lower) (11 / 10) = true)) ∧
    (startsSeq redEsc d = true ↔
      (¬0 < improvementOf b o lower ∧ absGt (speedupOf b o lower) (11 / 10) = true)) := by
  have hb' : ¬b = 0 := ne_of_gt hb
  rw [calcImprovement_present b o lower hb'] at hd ⊢
  refine ⟨rfl, ?_⟩
  by_cases hgt : absGt (speedupOf b o lower) (11 / 10) = true
  · rw [if_pos hgt] at hd
    by_cases him : 0 < improvementOf b o lower
    · rw [if_pos him, if_pos him] at hd
      subst hd
      simp only [List.append_assoc]
      refine ⟨iff_of_true ?_ him, iff_of_true ?_ hgt, ?_, ?_⟩
      · exact List.mem_append_right _ (List.mem_append_left _ (by decide))
      · exact List.mem_append_right _ (List.mem_append_right _
          (List.mem_append_right _ (List.mem_append_left _ (by decide))))
      · rw [startsSeq_self_append]
        simp [him, hgt]
      · rw [startsSeq_red_green]
        simp [him]
    · rw [if_neg him, if_neg him] at hd
      subst hd
      simp only [List.append_assoc, List.nil_append]
      refine ⟨iff_of_false ?_ him, iff_of_true ?_ hgt, ?_, ?_⟩
      · intro h
        rcases List.mem_append.mp h with h | h
        · exact absurd h (by decide)
        rcases List.mem_append.mp h with h | h
        · exact plus_not_mem_fmtF1 h
        rcases List.mem_append.mp h with h | h
        · exact absurd h (by decide)
        rcases List.mem_append.mp h with h | h
        · exact plus_not_mem_fmtPy h
        rcases List.mem_append.mp h with h | h
        · exact absurd h (by decide)
        · exact absurd h (by decide)
      · exact List.mem_append_right _ (List.mem_append_right _
          (List.mem_append_left _ (by decide)))
      · rw [startsSeq_green_red]
        simp [him]
      · rw [startsSeq_self_append]
        simp [him, hgt]
  · rw [if_neg hgt] at hd
    by_cases him : 0 < improvementOf b o lower
    · rw [if_pos him] at hd
      subst hd
      simp only [List.append_assoc]
      refine ⟨iff_of_true (List.mem_append_left _ (by decide)) him,
        iff_of_false ?_ hgt, ?_, ?_⟩
      · intro h
        rcases List.mem_append.mp h with h | h
        · exact absurd h (by decide)
        rcases List.mem_append.mp h with h | h
        · exact paren_not_mem_fmtF1 h
        · exact absurd h (by decide)
      · rw [show startsSeq greenEsc ("+".data ++ (fmtF1 (improvementOf b o lower) ++
          "%".data)) = false from rfl]
        simp [hgt]
      · rw [show startsSeq redEsc ("+".data ++ (fmtF1 (improvementOf b o lower) ++
          "%".data)) = false from rfl]
        simp [hgt]
    · rw [if_neg him] at hd
      subst hd
      simp only [List.append_assoc, List.nil_append]
      have hesc : '\x1b' ∉ fmtF1 (improvementOf b o lower) ++ "%".data := by
        intro h
        rcases List.mem_append.mp h with h | h
        · exact esc_not_mem_fmtF1 h
        · exact absurd h (by decide)
      refine ⟨iff_of_false ?_ him, iff_of_false ?_ hgt, ?_, ?_⟩
      · intro h
        rcases List.mem_append.mp h with h | h
        · exact plus_not_mem_fmtF1 h
        · exact absurd h (by decide)
      · intro h
        rcases List.mem_append.mp h with h | h
        · exact paren_not_mem_fmtF1 h
        · exact absurd h (by decide)
      · rw [show greenEsc = '\x1b' :: "[92m".data from rfl,
          startsSeq_eq_false_of_not_mem hesc]
        simp [hgt]
      · rw [show redEsc = '\x1b' :: "[91m".data from rfl,
          startsSeq_eq_false_of_not_mem hesc]
        simp [hgt]

/-- C2 witness: at baseline 100, optimized 50 (lower-is-better) the
hypotheses hold and the display carries the `+` sign. -/
theorem C2_witness :
    (0 : ℚ) < 100 ∧ ('+' ∈ (calcImprovement (some (100 : ℚ)) (some 50) true).2) :=
  ⟨by norm_num,
    ((C2_amended 100 50 true (by norm_num) _ rfl).2.1).mpr (by norm_num [improvementOf])⟩

/-! ## Dictionary lemmas -/

theorem lookupM_insertM_self (m : MMap) (k : List Char) (v : BenchmarkMetrics) :
    lookupM (insertM m k v) k = some v := by
  induction m with
  | nil => simp [insertM, lookupM]
  | cons p r ih =>
    rcases p with ⟨k1, v1⟩
    rw [insertM]
    split
    · rw [lookupM, if_pos rfl]
    · rename_i hne
      rw [lookupM, if_neg hne]
      exact ih

theorem lookupM_insertM_ne (m : MMap) (k : List Char) (v : BenchmarkMetrics)
    (k' : List Char) (h : k' ≠ k) : lookupM (insertM m k v) k' = lookupM m k' := by
  induction m with
  | nil => simp [insertM, lookupM, h]
  | cons p r ih =>
    rcases p with ⟨k1, v1⟩
    rw [insertM]
    split
    · rename_i hk
      rw [lookupM, if_neg h, lookupM, if_neg fun e => h (e.trans hk.symm)]
    · rw [lookupM, lookupM]
      by_cases hk1 : k' = k1
      · rw [if_pos hk1, if_pos hk1]
      · rw [if_neg hk1, if_neg hk1]
        exact ih

theorem isSome_lookupM_insertM (m : MMap) (k : List Char) (v : BenchmarkMetrics)
    (k' : List Char) (h : (lookupM m k').isSome = true) :
    (lookupM (insertM m k v) k').isSome = true := by
  by_cases hk : k' = k
  · subst hk
    rw [lookupM_insertM_self]
    rfl
  · rw [lookupM_insertM_ne m k v k' hk]
    exact h

/-! ## Presence of a record is monotone along both parse passes -/

theorem scanLine_preserves (st : List Char × MMap) (line k : List Char)
    (h : (lookupM st.2 k).isSome = true) :
    (lookupM (scanLine st line).2 k).isSome = true := by
  rw [scanLine]
  cases hts : testSearch line
  · exact isSome_lookupM_insertM _ _ _ _ h
  · simp only
    split
    · exact isSome_lookupM_insertM _ _ _ _ h
    · exact isSome_lookupM_insertM _ _ _ _ (isSome_lookupM_insertM _ _ _ _ h)

theorem foldl_scanLine_preserves (lines : List (List Char)) :
    ∀ (st : List Char × MMap) (k : List Char), (lookupM st.2 k).isSome = true →
      (lookupM (lines.foldl scanLine st).2 k).isSome = true := by
  induction lines with
  | nil => intro st k h; exact h
  | cons l rest ih =>
    intro st k h
    rw [List.foldl_cons]
    exact ih _ _ (scanLine_preserves st l k h)

theorem applyOverride_preserves (m : MMap) (res : Option ℚ) (line k : List Char)
    (h : (lookupM m k).isSome = true) :
    (lookupM (applyOverride m res line) k).isSome = true := by
  rw [applyOverride.eq_def]
  split
  · exact h
  · split
    · exact h
    · dsimp only
      split
      · exact isSome_lookupM_insertM _ _ _ _ h
      · split
        · exact isSome_lookupM_insertM _ _ _ _ h
        · exact h

theorem summaryPass_preserves (lines : List (List Char)) :
    ∀ (m : MMap) (k : List Char), (lookupM m k).isSome = true →
      (lookupM (summaryPass m lines) k).isSome = true := by
  induction lines with
  | nil => intro m k h; exact h
  | cons l rest ih =>
    intro m k h
    rw [summaryPass, List.foldl_cons]
    exact ih _ _ (applyOverride_preserves _ _ _ _ (applyOverride_preserves _ _ _ _ h))

/-! ## Claim C9 — is the `overall` record always present? -/

theorem splitNl_ne_nil (l : List Char) : splitNl l ≠ [] := by
  induction l with
  | nil => simp [splitNl]
  | cons c t ih =>
    rw [splitNl]
    split
    · simp
    · split <;> simp

/-- The first element of `content.split('\n')`. -/
def firstLineOf (content : List Char) : List Char := (splitNl content).headD []

theorem splitNl_eq_cons (content : List Char) :
    splitNl content = firstLineOf content :: (splitNl content).tail := by
  cases h : splitNl content with
  | nil => exact absurd h (splitNl_ne_nil content)
  | cons a r => simp [firstLineOf, h]

theorem scanLine_start (line : List Char) (h : testSearch line = none) :
    (lookupM (scanLine ("overall".data, []) line).2 "overall".data).isSome = true := by
  rw [scanLine, h]
  simp only
  rw [lookupM_insertM_self]
  rfl

/-- C9 amended: whenever the first line of the text does not match the
test-identification pattern — in particular for empty text or text
matching none of the patterns — the Parse Result contains a record named
`overall` (the first scanned line writes back the current-context record
and records are never removed), so the SLA reference lookup finds a record
and the SLA section is rendered.  (When the very first line does declare a
test, the context switches before any write-back and no `overall` record
need exist — see the counterexample.) -/
theorem C9_amended (content : List Char)
    (h : testSearch (firstLineOf content) = none) :
    (lookupM (parseLogFile content) "overall".data).isSome = true ∧
    (slaRef (parseLogFile content)).isSome = true := by
  have hpl : (lookupM (parseLines (splitNl content)) "overall".data).isSome = true := by
    rw [parseLines, splitNl_eq_cons content, List.foldl_cons]
    exact foldl_scanLine_preserves _ _ _ (scanLine_start _ h)
  have hfull : (lookupM (parseLogFile content) "overall".data).isSome = true := by
    rw [parseLogFile]
    exact summaryPass_preserves _ _ _ hpl
  refine ⟨hfull, ?_⟩
  rw [slaRef]
  cases hsla : lookupM (parseLogFile content) "SLA_Compliance".data <;>
    simp [Option.orElse, hsla, hfull]

/-- C9 witness: the amended claim applied to the patternless text
`hello`. -/
theorem C9_witness :
    (lookupM (parseLogFile "hello".data) "overall".data).isSome = true ∧
    (slaRef (parseLogFile "hello".data)).isSome = true :=
  C9_amended "hello".data (by decide)

/-- C9 counterexample: when the first line declares a test
(`TEST_F(A, B)`), the context switches to `B` before any write-back, the
Parse Result contains no `overall` record, the SLA reference lookup finds
nothing, and the SLA section body is empty — refuting the claim for every
input text. -/
theorem C9_counterexample :
    lookupM (parseLogFile "TEST_F(A, B)".data) "overall".data = none ∧
    slaRef (parseLogFile "TEST_F(A, B)".data) = none ∧
    slaSection (parseLogFile "TEST_F(A, B)".data) = [] := by
  refine ⟨?_, ?_, ?_⟩ <;> with_unfolding_all rfl

/-! ## Claim C7 — the summary-override pass

Claim-side description of the second pass: each matching line overrides
`p50_ms` when the lowered line contains `p50`, otherwise `p99_ms` when it
contains `p99`, the last matching (line, pattern) occurrence winning per
field. -/

/-- Which field a summary-matching line overrides: `some true` = p50 (the
line case-insensitively contains `p50`), otherwise `some false` = p99
(contains `p99`), else no field. -/
def overrideTarget (line : List Char) : Option Bool :=
  let low := line.map Char.toLower
  if containsSeq "p50".data low then some true
  else if containsSeq "p99".data low then some false
  else none

/-- The captured values of the two summary patterns on one line, in the
source's pattern order. -/
def lineOverrideVals (line : List Char) : List ℚ :=
  (sumPat1Search line).toList ++ (sumPat2Search line).toList

/-- The override events of one line, each with its targeted field. -/
def lineOverrides (line : List Char) : List (ℚ × Option Bool) :=
  (lineOverrideVals line).map fun v => (v, overrideTarget line)

/-- All override events of the second pass in execution order. -/
def overridesOf (lines : List (List Char)) : List (ℚ × Option Bool) :=
  lines.flatMap lineOverrides

/-- The value of a field after a sequence of override events: the last
event targeting the field wins, the start value surviving otherwise. -/
def lastTargeted (tgt : Bool) (os : List (ℚ × Option Bool)) (base : Option ℚ) : Option ℚ :=
  os.foldl (fun acc p => if p.2 = some tgt then some p.1 else acc) base

theorem lastTargeted_append (tgt : Bool) (a b : List (ℚ × Option Bool)) (base : Option ℚ) :
    lastTargeted tgt (a ++ b) base = lastTargeted tgt b (lastTargeted tgt a base) := by
  rw [lastTargeted, lastTargeted, lastTargeted, List.foldl_append]

theorem lastTargeted_cons_lines (tgt : Bool) (l : List Char) (ls : List (List Char))
    (base : Option ℚ) :
    lastTargeted tgt (overridesOf (l :: ls)) base =
      lastTargeted tgt (overridesOf ls) (lastTargeted tgt (lineOverrides l) base) := by
  rw [show overridesOf (l :: ls) = lineOverrides l ++ overridesOf ls by
    simp [overridesOf], lastTargeted_append]

theorem applyOverride_lookup (m : MMap) (res : Option ℚ) (line : List Char)
    (rec : BenchmarkMetrics) (h : lookupM m "overall".data = some rec) :
    (lookupM (applyOverride m res line) "overall".data =
      some { rec with
        p50_ms := lastTargeted true (res.toList.map fun v => (v, overrideTarget line)) rec.p50_ms,
        p99_ms := lastTargeted false (res.toList.map fun v => (v, overrideTarget line)) rec.p99_ms }) ∧
    ∀ k, k ≠ "overall".data → lookupM (applyOverride m res line) k = lookupM m k := by
  cases res with
  | none =>
    refine ⟨?_, fun k hk => rfl⟩
    rw [show applyOverride m none line = m from rfl, h]
    rfl
  | some v =>
    rw [applyOverride.eq_def]
    simp only [h]
    by_cases h50 : containsSeq "p50".data (List.map Char.toLower line) = true
    · rw [if_pos h50]
      refine ⟨?_, fun k hk => lookupM_insertM_ne _ _ _ _ hk⟩
      rw [lookupM_insertM_self]
      simp [overrideTarget, h50, lastTargeted]
    · rw [if_neg h50]
      by_cases h99 : containsSeq "p99".data (List.map Char.toLower line) = true
      · rw [if_pos h99]
        refine ⟨?_, fun k hk => lookupM_insertM_ne _ _ _ _ hk⟩
        rw [lookupM_insertM_self]
        simp [overrideTarget, h50, h99, lastTargeted]
      · rw [if_neg h99]
        refine ⟨?_, fun k hk => rfl⟩
        rw [h]
        simp [overrideTarget, h50, h99, lastTargeted]

theorem overrideLine_lookup (m : MMap) (line : List Char) (rec : BenchmarkMetrics)
    (h : lookupM m "overall".data = some rec) :
    (lookupM (overrideLine m line) "overall".data =
      some { rec with
        p50_ms := lastTargeted true (lineOverrides line) rec.p50_ms,
        p99_ms := lastTargeted false (lineOverrides line) rec.p99_ms }) ∧
    ∀ k, k ≠ "overall".data → lookupM (overrideLine m line) k = lookupM m k := by
  have h1 := applyOverride_lookup m (sumPat1Search line) line rec h
  have h2 := applyOverride_lookup (applyOverride m (sumPat1Search line) line)
    (sumPat2Search line) line _ h1.1
  rw [overrideLine]
  have hsplit : lineOverrides line =
      ((sumPat1Search line).toList.map fun v => (v, overrideTarget line)) ++
        ((sumPat2Search line).toList.map fun v => (v, overrideTarget line)) := by
    simp [lineOverrides, lineOverrideVals]
  refine ⟨?_, fun k hk => (h2.2 k hk).trans (h1.2 k hk)⟩
  rw [h2.1, hsplit, lastTargeted_append, lastTargeted_append]

theorem summaryPass_lookup (lines : List (List Char)) :
    ∀ (m : MMap) (rec : BenchmarkMetrics), lookupM m "overall".data = some rec →
      (lookupM (summaryPass m lines) "overall".data =
        some { rec with
          p50_ms := lastTargeted true (overridesOf lines) rec.p50_ms,
          p99_ms := lastTargeted false (overridesOf lines) rec.p99_ms }) ∧
      ∀ k, k ≠ "overall".data → lookupM (summaryPass m lines) k = lookupM m k := by
  induction lines with
  | nil =>
    intro m rec h
    refine ⟨?_, fun k hk => rfl⟩
    rw [summaryPass, List.foldl_nil, h]
    rfl
  | cons l ls ih =>
    intro m rec h
    have hstep := overrideLine_lookup m l rec h
    have hrest := ih (overrideLine m l) _ hstep.1
    rw [summaryPass, List.foldl_cons, ← summaryPass]
    refine ⟨?_, fun k hk => ((hrest.2 k hk).trans (hstep.2 k hk))⟩
    rw [hrest.1, lastTargeted_cons_lines, lastTargeted_cons_lines]

theorem summaryPass_none (lines : List (List Char)) :
    ∀ m : MMap, lookupM m "overall".data = none → summaryPass m lines = m := by
  induction lines with
  | nil => intro m _; rfl
  | cons l ls ih =>
    intro m h
    have hline : overrideLine m l = m := by
      rw [overrideLine]
      have hap : applyOverride m (sumPat1Search l) l = m := by
        rw [applyOverride.eq_def]
        cases sumPat1Search l
        · rfl
        · simp only [h]
      rw [hap]
      rw [applyOverride.eq_def]
      cases sumPat2Search l
      · rfl
      · simp only [h]
    rw [summaryPass, List.foldl_cons, ← summaryPass, hline]
    exact ih m h

/-- C7: `parse_log_file` runs the summary-override second pass after the
per-line pass; if no `overall` record exists the pass changes nothing, and
otherwise the `overall` record's `p50_ms` (resp. `p99_ms`) ends up holding
the value of the last summary-pattern match on a line case-insensitively
containing `p50` (resp. not containing `p50` but containing `p99`),
overriding whatever the per-line pass had stored, while every other record
is untouched. -/
theorem C7_summary_override (content : List Char) :
    (parseLogFile content = summaryPass (parseLines (splitNl content)) (splitNl content)) ∧
    (lookupM (parseLines (splitNl content)) "overall".data = none →
      parseLogFile content = parseLines (splitNl content)) ∧
    ∀ rec, lookupM (parseLines (splitNl content)) "overall".data = some rec →
      (lookupM (parseLogFile content) "overall".data =
        some { rec with
          p50_ms := lastTargeted true (overridesOf (splitNl content)) rec.p50_ms,
          p99_ms := lastTargeted false (overridesOf (splitNl content)) rec.p99_ms }) ∧
      ∀ k, k ≠ "overall".data →
        lookupM (parseLogFile content) k = lookupM (parseLines (splitNl content)) k := by
  refine ⟨rfl, fun h => summaryPass_none _ _ h, fun rec h => ?_⟩
  exact summaryPass_lookup (splitNl content) _ rec h

/-- C7 witness: on the text `P50: 10 ms` ++ newline ++ `Latency p50: 20 ms`
the per-line pass stores 10 then 20, and the override pass rewrites `p50`
with the summary value, the override winning. -/
theorem C7_witness :
    lookupM (parseLogFile "P50: 10 ms\nLatency p50: 20 ms".data) "overall".data =
      some { ({ name := "overall".data, p50_ms := some 20 } : BenchmarkMetrics) with
        p50_ms :=
          lastTargeted true (overridesOf (splitNl "P50: 10 ms\nLatency p50: 20 ms".data))
            (some 20),
        p99_ms :=
          lastTargeted false (overridesOf (splitNl "P50: 10 ms\nLatency p50: 20 ms".data))
            none } :=
  ((C7_summary_override "P50: 10 ms\nLatency p50: 20 ms".data).2.2 _
    (by with_unfolding_all rfl)).1

/-! ## Claim C3 — the end-to-end two-log scenario -/

/-- The baseline log of the scenario. -/
def baseLogC3 : List Char := "P50: 60.40 ms\nP99: 200.00 ms".data

/-- The optimized log of the scenario. -/
def optLogC3 : List Char := "P50: 30.20 ms\nP99: 200.00 ms".data

/-- The report rendered for the scenario. -/
def reportC3 : List Char := compareMetrics (parseLogFile baseLogC3) (parseLogFile optLogC3)

set_option maxRecDepth 100000 in
/-- C3 counterexample: the claim says the P99 improvement renders as
`+0.0%`; a zero improvement takes the non-positive branch (`improvement > 0`
is false), which emits no `+` sign, so the string `+0.0%` occurs nowhere in
the report. -/
theorem C3_counterexample : containsSeq "+0.0%".data reportC3 = false := by
  with_unfolding_all rfl

set_option maxRecDepth 100000 in
/-- C3 amended: the report shows the P50 improvement as `+50.0% (2.0x)`
and the P99 improvement as `0.0%` — without a `+` sign, zero improvement
being treated as non-positive — with no speedup annotation (ratio 1.0 is
below the 1.1 threshold). -/
theorem C3_amended :
    containsSeq "+50.0% (2.0x)".data reportC3 = true ∧
    containsSeq "ms  0.0%".data reportC3 = true ∧
    (calcImprovement (some 200) (some 200) true).2 = "0.0%".data := by
  refine ⟨?_, ?_, ?_⟩ <;> with_unfolding_all rfl

/-! ## Claim C8 — exact round-trip of well-formed `P50: <number> ms` lines

Claim-side definitions: a well-formed number literal (a digit sequence
with an optional decimal point and further digits, as the capture group
`(\d+\.?\d*)` admits), its exact decimal value, and the latency line built
from it. -/

/-- A well-formed number literal. -/
def wfNumB (s : List Char) : Bool :=
  let ds := s.takeWhile isDigitC
  let r := s.drop ds.length
  !ds.isEmpty && (r.isEmpty || ((r.headD ' ' == '.') && (r.drop 1).all isDigitC))

/-- The exact decimal value denoted by a well-formed number literal. -/
def decVal (s : List Char) : ℚ :=
  ratOfParts (s.takeWhile isDigitC)
    (((s.drop (s.takeWhile isDigitC).length).drop 1).takeWhile isDigitC)

/-- The latency line `P50: <s> ms`. -/
def mkP50Line (s : List Char) : List Char := "P50: ".data ++ (s ++ " ms".data)

/-! ### List utilities for the pattern-match proofs -/

theorem takeWhile_append_all {p : Char → Bool} {a : List Char} (b : List Char)
    (ha : ∀ c ∈ a, p c = true) : (a ++ b).takeWhile p = a ++ b.takeWhile p := by
  induction a with
  | nil => simp
  | cons c a1 ih =>
    have hc : p c = true := ha c (List.mem_cons_self c a1)
    show List.takeWhile p (c :: (a1 ++ b)) = c :: (a1 ++ List.takeWhile p b)
    rw [List.takeWhile_cons, hc, if_pos rfl, ih fun x hx => ha x (List.mem_cons_of_mem c hx)]

theorem takeWhile_all {p : Char → Bool} {a : List Char} (ha : ∀ c ∈ a, p c = true) :
    a.takeWhile p = a := by
  have := takeWhile_append_all (p := p) (a := a) [] ha
  simpa using this

theorem drop_length_takeWhile (p : Char → Bool) (l : List Char) :
    l.drop (l.takeWhile p).length = l.dropWhile p := by
  induction l with
  | nil => rfl
  | cons c t ih =>
    rw [List.takeWhile_cons, List.dropWhile_cons]
    by_cases hp : p c = true
    · simp only [hp, if_true, List.length_cons, List.drop_succ_cons]
      exact ih
    · simp only [hp]
      simp

theorem suffix_append_cases {t a b : List Char} (h : t <:+ a ++ b) :
    t <:+ b ∨ ∃ a', a' <:+ a ∧ a' ≠ [] ∧ t = a' ++ b := by
  induction a with
  | nil => exact Or.inl (by simpa using h)
  | cons c a1 ih =>
    rw [List.cons_append] at h
    rcases List.suffix_cons_iff.mp h with h | h
    · exact Or.inr ⟨c :: a1, List.suffix_refl _, by simp, by rw [h, List.cons_append]⟩
    · rcases ih h with h | ⟨a', ha, hne, rfl⟩
      · exact Or.inl h
      · exact Or.inr ⟨a', ha.trans (List.suffix_cons c a1), hne, rfl⟩

theorem searchPat_eq_none {α : Type} (m : List Char → Option α) (s : List Char)
    (h : ∀ t, t <:+ s → m t = none) : searchPat m s = none := by
  induction s with
  | nil => exact h [] (List.suffix_refl _)
  | cons c tl ih =>
    rw [searchPat, h (c :: tl) (List.suffix_refl _)]
    exact ih fun t ht => h t (ht.trans (List.suffix_cons c tl))

/-! ### Character-class facts -/

theorem digitDot_ne {c : Char} (hc : isDigitC c = true ∨ c = '.') (x : Char)
    (hx : isDigitC x = false) (hxd : x ≠ '.') : c ≠ x := by
  rcases hc with hc | hc
  · exact digit_ne hc hx
  · exact hc ▸ fun e => hxd e.symm

theorem digit_not_pySpace {c : Char} (h : isDigitC c = true) : isPySpaceB c = false := by
  rw [isPySpaceB]
  simp only [Bool.or_eq_false_iff, beq_eq_false_iff_ne]
  exact ⟨⟨⟨⟨⟨digit_ne h (by decide), digit_ne h (by decide)⟩, digit_ne h (by decide)⟩,
    digit_ne h (by decide)⟩, digit_ne h (by decide)⟩, digit_ne h (by decide)⟩

theorem digit_not_colonSpace {c : Char} (h : isDigitC c = true) : isColonSpaceB c = false := by
  rw [isColonSpaceB]
  simp only [Bool.or_eq_false_iff, beq_eq_false_iff_ne]
  exact ⟨digit_ne h (by decide), digit_not_pySpace h⟩

theorem digitDot_not_colonSpace {c : Char} (hc : isDigitC c = true ∨ c = '.') :
    isColonSpaceB c = false := by
  rcases hc with hc | hc
  · exact digit_not_colonSpace hc
  · subst hc
    rfl

theorem dot_or_digit_not_digit_of {c : Char} (hc : c = '.') : isDigitC c = false := by
  subst hc
  rfl

/-! ### Destructuring a well-formed number -/

theorem wfNum_destruct {s : List Char} (h : wfNumB s = true) :
    ∃ ds r, s = ds ++ r ∧ ds ≠ [] ∧ (∀ c ∈ ds, isDigitC c = true) ∧
      (∀ c ∈ ds, isDigitC c = true ∨ c = '.') ∧
      ((r = [] ∧ decVal s = ratOfParts ds []) ∨
        ∃ ds2, r = '.' :: ds2 ∧ (∀ c ∈ ds2, isDigitC c = true) ∧
          decVal s = ratOfParts ds ds2) := by
  rw [wfNumB] at h
  simp only [Bool.and_eq_true, Bool.not_eq_true', Bool.or_eq_true] at h
  obtain ⟨hne, hr⟩ := h
  refine ⟨s.takeWhile isDigitC, s.drop (s.takeWhile isDigitC).length, ?_, ?_, ?_, ?_, ?_⟩
  · rw [drop_length_takeWhile, List.takeWhile_append_dropWhile]
  · intro e
    rw [e] at hne
    exact absurd hne (by decide)
  · exact fun c hc => List.mem_takeWhile_imp hc
  · exact fun c hc => Or.inl (List.mem_takeWhile_imp hc)
  · rcases hr with hr | hr
    · left
      have hre : s.drop (s.takeWhile isDigitC).length = [] := by
        simpa [List.isEmpty_iff] using hr
      refine ⟨hre, ?_⟩
      rw [decVal, hre]
      rfl
    · right
      simp only [Bool.and_eq_true, beq_iff_eq] at hr
      obtain ⟨hhead, hall⟩ := hr
      cases hd : s.drop (s.takeWhile isDigitC).length with
      | nil =>
        rw [hd] at hhead
        exact absurd hhead (by decide)
      | cons c0 r0 =>
        rw [hd] at hhead
        simp only [List.headD_cons] at hhead
        subst hhead
        have hr0 : ∀ c ∈ r0, isDigitC c = true := by
          rw [hd] at hall
          intro c hc
          exact List.all_eq_true.mp (by simpa using hall) c hc
        refine ⟨r0, rfl, hr0, ?_⟩
        rw [decVal, hd]
        simp only [List.drop_succ_cons, List.drop_zero]
        rw [takeWhile_all hr0]

theorem wfNum_chars {s : List Char} (h : wfNumB s = true) :
    ∀ c ∈ s, isDigitC c = true ∨ c = '.' := by
  obtain ⟨ds, r, rfl, _, hds, _, hr⟩ := wfNum_destruct h
  intro c hc
  rcases List.mem_append.mp hc with hc | hc
  · exact Or.inl (hds c hc)
  · rcases hr with ⟨rfl, _⟩ | ⟨ds2, rfl, hds2, _⟩
    · simp at hc
    · rcases List.mem_cons.mp hc with hc | hc
      · exact Or.inr hc
      · exact Or.inl (hds2 c hc)

theorem wfNum_ne_nil {s : List Char} (h : wfNumB s = true) : s ≠ [] := by
  obtain ⟨ds, r, rfl, hne, _, _, _⟩ := wfNum_destruct h
  simp [hne]

/-! ### The p50 pattern captures a well-formed number exactly -/

theorem numCapAt_wf {s : List Char} (h : wfNumB s = true) :
    numCapAt (s ++ " ms".data) = some (decVal s, " ms".data) := by
  obtain ⟨ds, r, rfl, hne, hds, _, hr⟩ := wfNum_destruct h
  have hie : ds.isEmpty = false := by
    cases ds with
    | nil => exact absurd rfl hne
    | cons a l => rfl
  rcases hr with ⟨rfl, hval⟩ | ⟨ds2, rfl, hds2, hval⟩
  · rw [List.append_nil] at hval ⊢
    have ht : (ds ++ " ms".data).takeWhile isDigitC = ds := by
      rw [takeWhile_append_all _ hds, show (" ms".data).takeWhile isDigitC = [] from rfl,
        List.append_nil]
    rw [numCapAt, hval]
    simp only [ht, hie, Bool.false_eq_true, if_false, List.drop_left]
    rfl
  · have hX : (ds ++ '.' :: ds2) ++ " ms".data = ds ++ ('.' :: (ds2 ++ " ms".data)) := by
      simp
    rw [hX]
    have ht : (ds ++ ('.' :: (ds2 ++ " ms".data))).takeWhile isDigitC = ds := by
      rw [takeWhile_append_all _ hds, show ('.' :: (ds2 ++ " ms".data)).takeWhile isDigitC = []
        from by rw [List.takeWhile_cons]; rfl, List.append_nil]
    have ht2 : (ds2 ++ " ms".data).takeWhile isDigitC = ds2 := by
      rw [takeWhile_append_all _ hds2, show (" ms".data).takeWhile isDigitC = [] from rfl,
        List.append_nil]
    rw [numCapAt, hval]
    simp only [ht, hie, Bool.false_eq_true, if_false, List.drop_left]
    show some (ratOfParts ds ((ds2 ++ " ms".data).takeWhile isDigitC),
      (ds2 ++ " ms".data).drop ((ds2 ++ " ms".data).takeWhile isDigitC).length) = _
    rw [ht2, List.drop_left]

theorem takeWhile_colonSpace_num {s : List Char} (h : wfNumB s = true) :
    (s ++ " ms".data).takeWhile isColonSpaceB = [] := by
  obtain ⟨ds, r, hs, hne, hds, _, _⟩ := wfNum_destruct h
  cases ds with
  | nil => exact absurd rfl hne
  | cons c0 ds0 =>
    rw [hs]
    simp only [List.cons_append]
    rw [List.takeWhile_cons,
      digit_not_colonSpace (hds c0 (List.mem_cons_self c0 ds0))]
    simp

theorem metricAt_p50_line {s : List Char} (h : wfNumB s = true) :
    metricAt 'P' 'p' "50".data msUnits
      ('P' :: '5' :: '0' :: ':' :: ' ' :: (s ++ " ms".data)) = some (decVal s) := by
  have hsep : (':' :: ' ' :: (s ++ " ms".data)).takeWhile isColonSpaceB = [':', ' '] := by
    rw [List.takeWhile_cons, show isColonSpaceB ':' = true from rfl, if_pos rfl,
      List.takeWhile_cons, show isColonSpaceB ' ' = true from rfl, if_pos rfl,
      takeWhile_colonSpace_num h]
  rw [metricAt, if_pos (Or.inl rfl),
    show startsSeq "50".data ('5' :: '0' :: ':' :: ' ' :: (s ++ " ms".data)) = true from rfl,
    if_pos rfl,
    show ('5' :: '0' :: ':' :: ' ' :: (s ++ " ms".data)).drop ("50".data).length =
      ':' :: ' ' :: (s ++ " ms".data) from rfl]
  dsimp only
  rw [hsep]
  show (match numCapAt (s ++ " ms".data) with
    | some (v, r) => if unitsOk msUnits (r.dropWhile isPySpaceB) then some v else none
    | none => none) = some (decVal s)
  rw [numCapAt_wf h]
  with_unfolding_all rfl

theorem p50Search_mkLine {s : List Char} (h : wfNumB s = true) :
    p50Search (mkP50Line s) = some (decVal s) := by
  show searchPat (metricAt 'P' 'p' "50".data msUnits)
    ('P' :: '5' :: '0' :: ':' :: ' ' :: (s ++ " ms".data)) = some (decVal s)
  rw [searchPat, metricAt_p50_line h]

/-! ### None of the other patterns can match anywhere in a `P50: <n> ms` line -/

theorem metricAt_head_ne {c1 c2 c : Char} {lit : List Char} {units : List (List Char)}
    {r : List Char} (h1 : c ≠ c1) (h2 : c ≠ c2) :
    metricAt c1 c2 lit units (c :: r) = none := by
  simp [metricAt, h1, h2]

theorem testAlt1_not_mem {t : List Char} (hT : 'T' ∉ t) (hB : 'B' ∉ t) :
    testAlt1 t = none := by
  have h1 : startsSeq "TEST_F".data t = false := by
    rw [show "TEST_F".data = 'T' :: "EST_F".data from rfl]
    exact startsSeq_eq_false_of_not_mem hT
  have h2 : startsSeq "BENCHMARK".data t = false := by
    rw [show "BENCHMARK".data = 'B' :: "ENCHMARK".data from rfl]
    exact startsSeq_eq_false_of_not_mem hB
  rw [testAlt1]
  simp [h1, h2]

theorem testAlt2_no_colon_word {t : List Char} (hC : 'C' ∉ t) : testAlt2 t = none := by
  rw [testAlt2]
  split
  · rfl
  · split
    · rename_i t1 heq
      dsimp only
      split
      · rfl
      · have hC1 : 'C' ∉ t1.drop (t1.takeWhile isPySpaceB).length := by
          intro hm
          refine hC (List.mem_of_mem_drop (n := (t.takeWhile isWordB).length) ?_)
          rw [heq]
          exact List.mem_cons_of_mem ':' (List.mem_of_mem_drop hm)
        have hss : startsSeq "Count:".data (t1.drop (t1.takeWhile isPySpaceB).length) = false := by
          rw [show "Count:".data = 'C' :: "ount:".data from rfl]
          exact startsSeq_eq_false_of_not_mem hC1
        rw [hss]
        simp
    · rfl

theorem sumPat1At_not_mem {t : List Char} (hL : 'L' ∉ t) : sumPat1At t = none := by
  have h1 : startsSeq "Latency p50".data t = false := by
    rw [show "Latency p50".data = 'L' :: "atency p50".data from rfl]
    exact startsSeq_eq_false_of_not_mem hL
  rw [sumPat1At]
  simp [h1]

theorem sumPat2At_not_mem {t : List Char} (hR : 'R' ∉ t) : sumPat2At t = none := by
  have h1 : startsSeq "Read".data t = false := by
    rw [show "Read".data = 'R' :: "ead".data from rfl]
    exact startsSeq_eq_false_of_not_mem hR
  rw [sumPat2At]
  simp [h1]

theorem mkP50Line_chars {s : List Char} (hs : ∀ c ∈ s, isDigitC c = true ∨ c = '.') :
    ∀ x ∈ mkP50Line s, isDigitC x = true ∨ x = 'P' ∨ x = ':' ∨ x = ' ' ∨ x = '.' ∨
      x = 'm' ∨ x = 's' := by
  intro x hx
  rw [mkP50Line] at hx
  rcases List.mem_append.mp hx with hx | hx
  · rw [show "P50: ".data = ['P', '5', '0', ':', ' '] from rfl] at hx
    fin_cases hx <;> decide
  · rcases List.mem_append.mp hx with hx | hx
    · rcases hs x hx with h | h
      · exact Or.inl h
      · exact Or.inr (Or.inr (Or.inr (Or.inr (Or.inl h))))
    · rw [show " ms".data = [' ', 'm', 's'] from rfl] at hx
      fin_cases hx <;> decide

theorem not_mem_mkP50Line {s : List Char} (hs : ∀ c ∈ s, isDigitC c = true ∨ c = '.')
    (x : Char)
    (hx : ¬(isDigitC x = true ∨ x = 'P' ∨ x = ':' ∨ x = ' ' ∨ x = '.' ∨ x = 'm' ∨ x = 's')) :
    x ∉ mkP50Line s :=
  fun hm => hx (mkP50Line_chars hs x hm)

theorem otherPats_fail {s : List Char} (h : wfNumB s = true) :
    ∀ t, t <:+ mkP50Line s →
      metricAt 'P' 'p' "90".data msUnits t = none ∧
      metricAt 'P' 'p' "99".data msUnits t = none ∧
      metricAt 'M' 'm' "ax".data msUnits t = none ∧
      metricAt 'T' 't' "hroughput".data qpsUnits t = none ∧
      testAlt1 t = none ∧ testAlt2 t = none ∧
      sumPat1At t = none ∧ sumPat2At t = none := by
  have hs := wfNum_chars h
  intro t ht
  have hsub := ht.subset
  have hC : 'C' ∉ t := fun hm => not_mem_mkP50Line hs 'C' (by decide) (hsub hm)
  have hT : 'T' ∉ t := fun hm => not_mem_mkP50Line hs 'T' (by decide) (hsub hm)
  have hB : 'B' ∉ t := fun hm => not_mem_mkP50Line hs 'B' (by decide) (hsub hm)
  have hL : 'L' ∉ t := fun hm => not_mem_mkP50Line hs 'L' (by decide) (hsub hm)
  have hR : 'R' ∉ t := fun hm => not_mem_mkP50Line hs 'R' (by decide) (hsub hm)
  have hmetric : metricAt 'P' 'p' "90".data msUnits t = none ∧
      metricAt 'P' 'p' "99".data msUnits t = none ∧
      metricAt 'M' 'm' "ax".data msUnits t = none ∧
      metricAt 'T' 't' "hroughput".data qpsUnits t = none := by
    rcases suffix_append_cases (show t <:+ "P50: ".data ++ (s ++ " ms".data) from ht) with
      h2 | ⟨a', ha', hne', rfl⟩
    · rcases suffix_append_cases h2 with h3 | ⟨s', hs', hne2, rfl⟩
      · rw [← List.mem_tails,
          show (" ms".data).tails = [[' ', 'm', 's'], ['m', 's'], ['s'], []] from rfl] at h3
        fin_cases h3 <;> exact ⟨rfl, rfl, rfl, rfl⟩
      · cases s' with
        | nil => exact absurd rfl hne2
        | cons c s'' =>
          have hc : isDigitC c = true ∨ c = '.' := hs c (hs'.subset (List.mem_cons_self c s''))
          rw [List.cons_append]
          exact ⟨metricAt_head_ne (digitDot_ne hc 'P' (by decide) (by decide))
              (digitDot_ne hc 'p' (by decide) (by decide)),
            metricAt_head_ne (digitDot_ne hc 'P' (by decide) (by decide))
              (digitDot_ne hc 'p' (by decide) (by decide)),
            metricAt_head_ne (digitDot_ne hc 'M' (by decide) (by decide))
              (digitDot_ne hc 'm' (by decide) (by decide)),
            metricAt_head_ne (digitDot_ne hc 'T' (by decide) (by decide))
              (digitDot_ne hc 't' (by decide) (by decide))⟩
    · rw [← List.mem_tails,
        show ("P50: ".data).tails = [['P', '5', '0', ':', ' '], ['5', '0', ':', ' '],
          ['0', ':', ' '], [':', ' '], [' '], []] from rfl] at ha'
      fin_cases ha'
      · exact ⟨rfl, rfl, rfl, rfl⟩
      · exact ⟨rfl, rfl, rfl, rfl⟩
      · exact ⟨rfl, rfl, rfl, rfl⟩
      · exact ⟨rfl, rfl, rfl, rfl⟩
      · exact ⟨rfl, rfl, rfl, rfl⟩
      · exact absurd rfl hne'
  exact ⟨hmetric.1, hmetric.2.1, hmetric.2.2.1, hmetric.2.2.2, testAlt1_not_mem hT hB,
    testAlt2_no_colon_word hC, sumPat1At_not_mem hL, sumPat2At_not_mem hR⟩

theorem splitNl_of_no_newline {l : List Char} (h : '\n' ∉ l) : splitNl l = [l] := by
  induction l with
  | nil => rfl
  | cons c t ih =>
    rw [splitNl, if_neg fun e => h (by rw [← e]; exact List.mem_cons_self c t),
      ih fun hm => h (List.mem_cons_of_mem c hm)]

/-- C8 amended: for every well-formed number literal `<n>` (digits with an
optional decimal point and further digits), the p50 pattern captures the
literal of the line `P50: <n> ms` in full and parsing that line yields the
`overall` record with `p50_ms` holding exactly the decimal value of the
literal — formatting then parsing round-trips the value.  (A later line
matching the p50 pattern in the same test context, or a summary override,
would overwrite the field — last match wins — hence the restriction to the
line being the last such match; see the counterexample.) -/
theorem C8_amended (s : List Char) (h : wfNumB s = true) :
    p50Search (mkP50Line s) = some (decVal s) ∧
    parseLogFile (mkP50Line s) =
      [("overall".data, { initMetrics "overall".data with p50_ms := some (decVal s) })] := by
  have hfail := otherPats_fail h
  have hs := wfNum_chars h
  have h50 := p50Search_mkLine h
  have h90 : p90Search (mkP50Line s) = none :=
    searchPat_eq_none _ _ fun t ht => (hfail t ht).1
  have h99 : p99Search (mkP50Line s) = none :=
    searchPat_eq_none _ _ fun t ht => (hfail t ht).2.1
  have hmax : maxSearch (mkP50Line s) = none :=
    searchPat_eq_none _ _ fun t ht => (hfail t ht).2.2.1
  have hqps : qpsSearch (mkP50Line s) = none :=
    searchPat_eq_none _ _ fun t ht => (hfail t ht).2.2.2.1
  have htest : testSearch (mkP50Line s) = none := by
    refine searchPat_eq_none _ _ fun t ht => ?_
    rw [(hfail t ht).2.2.2.2.1, (hfail t ht).2.2.2.2.2.1]
    rfl
  have hsum1 : sumPat1Search (mkP50Line s) = none :=
    searchPat_eq_none _ _ fun t ht => (hfail t ht).2.2.2.2.2.2.1
  have hsum2 : sumPat2Search (mkP50Line s) = none :=
    searchPat_eq_none _ _ fun t ht => (hfail t ht).2.2.2.2.2.2.2
  have hnl : splitNl (mkP50Line s) = [mkP50Line s] :=
    splitNl_of_no_newline (not_mem_mkP50Line hs '\n' (by decide))
  refine ⟨h50, ?_⟩
  rw [parseLogFile]
  dsimp only
  rw [hnl, parseLines, List.foldl_cons, List.foldl_nil, scanLine, htest]
  dsimp only
  rw [h50, h90, h99, hmax, hqps]
  dsimp only
  rw [summaryPass, List.foldl_cons, List.foldl_nil, overrideLine, hsum1, hsum2]
  rfl

/-- C8 witness: the amended claim applied to the literal `60.40`. -/
theorem C8_witness :
    p50Search (mkP50Line "60.40".data) = some (decVal "60.40".data) ∧
    parseLogFile (mkP50Line "60.40".data) =
      [("overall".data,
        { initMetrics "overall".data with p50_ms := some (decVal "60.40".data) })] :=
  C8_amended "60.40".data (by decide)

/-- C8 counterexample: the claim as stated quantifies over every
well-formed latency line in the text; with two p50 lines in the same
(`overall`) context the later one overwrites the earlier, so the record
does not hold the first line's number 1 — it holds 2. -/
theorem C8_counterexample :
    wfNumB "1".data = true ∧
    lookupM (parseLogFile "P50: 1 ms\nP50: 2 ms".data) "overall".data =
      some { initMetrics "overall".data with p50_ms := some 2 } ∧
    (2 : ℚ) ≠ 1 := by
  refine ⟨by decide, by with_unfolding_all rfl, by norm_num⟩

end CompareBenchmarks
